import Mathlib

/-!
The package `watcher` of orivil/watcher: a debounced recursive directory watcher.

A shallow embedding of `watcher.go` (package `watcher`).

The engine `AutoCommand` is a record; every method is a function that takes the
engine (and what it reads from its environment) and returns the new engine
together with the effects it performed, in order. The collaborators that the
source imports are modelled from their documented behaviour:

* `path/filepath` : `Ext`, `Join` (on clean paths) and `Walk`;
* `os`            : `Stat` / `Lstat` on a tree of directories and regular files
                    (no symbolic links);
* `fsnotify`      : a watcher holding the list of watched paths, with `Add`
                    and `Remove` that may fail, and the withdrawal of the watch
                    of a deleted path;
* `time`          : a timer with one pending expiry and the channel `C` on
                    which it sends the instant of each expiry;
* `sync`, `os/signal`, `os/exec`, `log` : recorded as effects.

Instants and durations are natural numbers of nanoseconds, as in
`time.Duration`.
-/

namespace watcher

/-! ## The filesystem seen by `os.Stat` and `filepath.Walk` -/

/-- A filesystem object: a regular file, or a directory with its entries in the
order `readDirNames` lists them. A directory whose `readable` flag is `false`
can be stat-ed but not listed (`readDirNames` fails on it). -/
inductive Node where
  | file : Node
  | dir (readable : Bool) (entries : List (String × Node)) : Node

/-- Reports whether the object is a directory (`FileInfo.IsDir`). -/
def Node.IsDir : Node → Bool
  | .file => false
  | .dir _ _ => true

/-- The components of a slash-separated path; empty components and `.` are
dropped. `cur` holds the characters of the component being read, reversed. -/
def splitPath : List Char → List Char → List String
  | [], cur => if cur = [] ∨ cur = ['.'] then [] else [String.mk cur.reverse]
  | c :: rest, cur =>
      if c = '/' then
        if cur = [] ∨ cur = ['.'] then splitPath rest []
        else String.mk cur.reverse :: splitPath rest []
      else splitPath rest (c :: cur)

/-- The entry called `name` in a directory listing. -/
def findEntry (name : String) : List (String × Node) → Option Node
  | [] => none
  | (n, c) :: rest => if n = name then some c else findEntry name rest

/-- Follows the components of a path down from a node. -/
def descend : Node → List String → Option Node
  | n, [] => some n
  | .file, _ :: _ => none
  | .dir _ entries, name :: rest =>
      match findEntry name entries with
      | none => none
      | some c => descend c rest

/-- The object a path names in the tree `fs`, if any. -/
def lookup (fs : Node) (path : String) : Option Node :=
  descend fs (splitPath path.toList [])

namespace os

/-- Model of `os.Stat`: the object at `name`, or the error of a missing path. -/
def Stat (fs : Node) (name : String) : Except String Node :=
  match lookup fs name with
  | some n => .ok n
  | none => .error ("stat " ++ name ++ ": no such file or directory")

end os

namespace filepath

/-- Scans a path from its last character backwards, as `filepath.Ext` does:
stops with no extension at a separator, and returns the suffix starting at the
first dot it meets. `acc` holds the characters already passed. -/
def extFrom : List Char → List Char → List Char
  | [], _ => []
  | c :: rest, acc =>
      if c = '/' then []
      else if c = '.' then c :: acc
      else extFrom rest (c :: acc)

/-- Model of `filepath.Ext`: the suffix beginning at the final dot in the final
element of the path; empty if there is no dot. -/
def Ext (path : String) : String :=
  String.mk (extFrom path.toList.reverse [])

/-- Model of `filepath.Join` for a clean directory path and an entry name. -/
def Join (path name : String) : String :=
  path ++ "/" ++ name

mutual
/-- Model of the recursive descent of `filepath.Walk` with the callback of
`AutoCommand.walk` inlined: the callback returns the error it is given, which
stops the walk, and otherwise appends the path when it is a directory. The
result is the list of appended paths and the error the walk returns. -/
def walkNode (path : String) : Node → List String × Option String
  | .file => ([], none)
  | .dir readable entries =>
      if readable then
        let r := walkEntries path entries
        (path :: r.1, r.2)
      else ([], some ("open " ++ path ++ ": permission denied"))
/-- The loop of `filepath.Walk` over the entries of a directory. -/
def walkEntries (path : String) : List (String × Node) → List String × Option String
  | [] => ([], none)
  | (name, child) :: rest =>
      match walkNode (Join path name) child with
      | (ds, some e) => (ds, some e)
      | (ds, none) =>
          let r := walkEntries path rest
          (ds ++ r.1, r.2)
end

/-- Model of `filepath.Walk(root, fn)` for the callback of `AutoCommand.walk`:
when `Lstat` of the root fails the callback gets that error and returns it. -/
def Walk (fs : Node) (root : String) : List String × Option String :=
  match lookup fs root with
  | none => ([], some ("lstat " ++ root ++ ": no such file or directory"))
  | some n => walkNode root n

end filepath

/-! ## Effects -/

/-- What the engine does to the world outside its own fields, in the order it
does it. -/
inductive Effect where
  /-- Call of `b.runChecker.Lock()`. -/
  | lock
  /-- Call of `b.runChecker.Unlock()`. -/
  | unlock
  /-- Call of `b.errHandle(e)`, with the text of `e`. -/
  | errHandle (msg : String)
  /-- Call of `b.watcher.Add(dir)`; `ok` is `false` when it returned an error. -/
  | watcherAdd (dir : String) (ok : Bool)
  /-- Call of `b.watcher.Remove(dir)`; `ok` is `false` when it returned an error. -/
  | watcherRemove (dir : String) (ok : Bool)
  /-- Call of `time.NewTimer(d)`. -/
  | newTimer (d : Nat)
  /-- Call of `timer.Reset(d)`. -/
  | timerReset (d : Nat)
  /-- A `go func() ... ()` statement. -/
  | go
  /-- Call of `signal.Notify(sig, syscall.SIGINT, syscall.SIGTERM)`. -/
  | signalNotify
  /-- The receive `<-sig`. -/
  | awaitSignal
  /-- Call of `b.watcher.Close()`. -/
  | watcherClose
  /-- A call `h()` of the action given to `RunFunc`. -/
  | call
  /-- Call of `log.Printf`, with the formatted text. -/
  | logPrintf (msg : String)
  /-- Call of `exec.Command(name, args...)` followed by `cmd.Run()`. -/
  | execRun (name : String) (args : List String)
deriving DecidableEq, Repr

/-- Reports whether an effect is a call of the error handler. -/
def Effect.isErrHandle : Effect → Bool
  | .errHandle _ => true
  | _ => false

/-! ## The notification capability (`fsnotify.Watcher`) -/

/-- State of an `fsnotify.Watcher`: the paths it watches, and whether it has
been closed. A path enters the list through `Add`; it leaves it through
`Remove` and `Close`, and when the path is deleted: the operating system drops
the watch on a deleted path and the watcher reports the removal
(`Watcher.withdraw`, `Watcher.deliver`). -/
structure Watcher where
  watches : List String
  closed : Bool
deriving DecidableEq, Repr

/-- The environment at one instant: the directory tree, and which registrations
the notification capability refuses (a missing path, the limit on the number of
watches, ...) given the paths it already watches. -/
structure World where
  fs : Node
  addFails : List String → String → Bool

/-- Model of `Watcher.Add`: fails on a closed watcher or when the environment
refuses the registration; watching a path twice keeps one watch. -/
def Watcher.Add (w : Watcher) (env : World) (dir : String) : Watcher × Bool :=
  if w.closed ∨ env.addFails w.watches dir = true then (w, false)
  else if dir ∈ w.watches then (w, true)
  else ({ w with watches := w.watches ++ [dir] }, true)

/-- Model of `Watcher.Remove`: fails on a closed watcher and on a path that is
not watched. -/
def Watcher.Remove (w : Watcher) (dir : String) : Watcher × Bool :=
  if w.closed ∨ dir ∉ w.watches then (w, false)
  else ({ w with watches := w.watches.filter (fun d => d ≠ dir) }, true)

/-- The watcher after the path `name` has been deleted: the watch on it, if there
was one, is gone. -/
def Watcher.withdraw (w : Watcher) (name : String) : Watcher :=
  { w with watches := w.watches.filter (fun d => d ≠ name) }

/-- Model of `Watcher.Close`. -/
def Watcher.Close (w : Watcher) : Watcher :=
  { w with watches := [], closed := true }

/-- A filesystem notification (`fsnotify.Event`). -/
structure Event where
  Name : String
  Op : Nat
deriving DecidableEq, Repr

namespace fsnotify

/-- The bits of `fsnotify.Op`. -/
def Create : Nat := 1
def Write : Nat := 2
def Remove : Nat := 4
def Rename : Nat := 8
def Chmod : Nat := 16

end fsnotify

/-! ## The debounce timer (`time.Timer`) -/

namespace time

/-- The constant `time.Second`, in nanoseconds. -/
def Second : Nat := 1000000000

end time

/-- State of a `time.Timer`: the instant of its pending expiry, if it has one,
and the instants it has sent on its channel `C`, oldest first. A timer has at
most one pending expiry. The send of an expiry never blocks; the record keeps
every send, the receiver being taken to have emptied the one-value buffer of
the channel by then. -/
structure Timer where
  pending : Option Nat
  C : List Nat
deriving DecidableEq, Repr

/-- Model of `time.NewTimer(d)` called at instant `now`. -/
def Timer.NewTimer (now d : Nat) : Timer :=
  { pending := some (now + d), C := [] }

/-- Model of `timer.Reset(d)` called at instant `now`: the timer now expires
`d` after `now`, whatever it was going to do before. -/
def Timer.Reset (t : Timer) (now d : Nat) : Timer :=
  { t with pending := some (now + d) }

/-- The passage of time up to instant `now`: a pending expiry that is due sends
its instant on `C` and leaves the timer idle. -/
def Timer.expire (t : Timer) (now : Nat) : Timer :=
  match t.pending with
  | some at_ => if at_ ≤ now then { pending := none, C := t.C ++ [at_] } else t
  | none => t

/-! ## The engine -/

/-- Lookup in a Go `map[string]bool`: the value of the last assignment to the
key, `false` for a key never assigned. -/
def mapGet : List (String × Bool) → String → Bool
  | [], _ => false
  | (k, v) :: rest, key => if k = key then v else mapGet rest key

/-- Assignment `m[key] = v` in a Go `map[string]bool`. -/
def mapSet (m : List (String × Bool)) (key : String) (v : Bool) : List (String × Bool) :=
  (key, v) :: m

/-- The field `runChecker`: a mutex and the flag it guards. -/
structure RunChecker where
  locked : Bool
  running : Bool
deriving DecidableEq, Repr

/-- The struct `AutoCommand`. The field `errHandle` is the caller's function;
its calls are recorded as `Effect.errHandle`. -/
structure AutoCommand where
  dirs : List String
  exts : List (String × Bool)
  watcher : Watcher
  runChecker : RunChecker
deriving DecidableEq, Repr

/-- The first loop of `NewAutoCommand`: `es[ext] = true` for each given
extension, starting from the empty map. -/
def newExts (exts : List String) : List (String × Bool) :=
  exts.foldl (fun es ext => mapSet es ext true) []

/-- The constructor `NewAutoCommand(exts, errHandle)`. `newWatcher` is the outcome of
`fsnotify.NewWatcher()`; the function panics (`none`) when that failed. -/
def NewAutoCommand (exts : List String) (newWatcher : Except String Watcher) :
    Option AutoCommand :=
  let es := newExts exts
  match newWatcher with
  | .error _ => none
  | .ok w => some { dirs := [], exts := es, watcher := w,
                    runChecker := { locked := false, running := false } }

/-- The method `(b *AutoCommand) Watch(dir ...string)`. -/
def AutoCommand.Watch (b : AutoCommand) (dir : List String) : AutoCommand :=
  { b with dirs := dir }

/-- The method `(b *AutoCommand) walk(dir)`: the directory itself followed by every
directory the traversal reached; a traversal error goes to the error handler
and the directories found so far are still returned. -/
def AutoCommand.walk (fs : Node) (dir : String) : List String × List Effect :=
  let r := filepath.Walk fs dir
  (dir :: r.1,
   match r.2 with
   | some e => [Effect.errHandle ("watcher.AutoCommand.walk(): " ++ e)]
   | none => [])

/-- The loop `for _, dir := range dirs { b.watcher.Add(dir) }`: the value
returned by `Add` is dropped. -/
def addAll (env : World) : List String → Watcher → Watcher × List Effect
  | [], w => (w, [])
  | dir :: rest, w =>
      let r := w.Add env dir
      let r2 := addAll env rest r.1
      (r2.1, Effect.watcherAdd dir r.2 :: r2.2)

/-- The loop `for _, dir := range dirs { b.watcher.Remove(dir) }`: the value
returned by `Remove` is dropped. -/
def removeAll : List String → Watcher → Watcher × List Effect
  | [], w => (w, [])
  | dir :: rest, w =>
      let r := w.Remove dir
      let r2 := removeAll rest r.1
      (r2.1, Effect.watcherRemove dir r.2 :: r2.2)

/-- State of the goroutine started by `listen`: the engine and the timer. -/
structure Loop where
  b : AutoCommand
  timer : Timer
deriving DecidableEq, Repr

/-- The `case evt := <-b.watcher.Events` branch of the loop in `listen`,
taken at instant `now` in environment `env`. -/
def handleEvent (env : World) (now : Nat) (evt : Event) (s : Loop) : Loop × List Effect :=
  let fExt := filepath.Ext evt.Name
  if mapGet s.b.exts fExt = true then
    ({ s with timer := s.timer.Reset now (3 * time.Second) },
     [Effect.timerReset (3 * time.Second)])
  else if fExt = "" then
    match os.Stat env.fs evt.Name with
    | .error err => (s, [Effect.errHandle ("watcher.AutoCommand.listen(): " ++ err)])
    | .ok info =>
        if info.IsDir = true then
          if evt.Op &&& fsnotify.Create = fsnotify.Create then
            let ds := AutoCommand.walk env.fs evt.Name
            let r := addAll env ds.1 s.b.watcher
            ({ s with b := { s.b with watcher := r.1 } }, ds.2 ++ r.2)
          else if evt.Op &&& fsnotify.Remove = fsnotify.Remove then
            let ds := AutoCommand.walk env.fs evt.Name
            let r := removeAll ds.1 s.b.watcher
            ({ s with b := { s.b with watcher := r.1 } }, ds.2 ++ r.2)
          else (s, [])
        else (s, [])
  else (s, [])

/-- The `case err := <-b.watcher.Errors` branch of the loop in `listen`. -/
def handleError (err : String) (s : Loop) : Loop × List Effect :=
  (s, [Effect.errHandle ("watcher.AutoCommand.listen(): " ++ err)])

/-- What the loop of `listen` receives: an event or an error of the watcher. -/
inductive Msg where
  | event (evt : Event)
  | error (err : String)

/-- One message of the watcher, with the instant at which the loop takes it and
the environment at that instant. -/
structure Input where
  time : Nat
  env : World
  msg : Msg

/-- The watcher at the moment it hands a message to the loop. A removal is
reported for a path that has been deleted, so the watch on that path has been
withdrawn by then; any other message leaves the watch list as it was. -/
def Watcher.deliver (w : Watcher) : Msg → Watcher
  | .event evt =>
      if evt.Op &&& fsnotify.Remove = fsnotify.Remove then w.withdraw evt.Name else w
  | .error _ => w

/-- One iteration of the `for { select {...} }` loop of `listen`. A pending
expiry that is due at the instant of the message has fired by then, and the
watcher has withdrawn the watch of a path whose removal it reports. -/
def loopStep (inp : Input) (s : Loop) : Loop × List Effect :=
  let s1 : Loop :=
    { b := { s.b with watcher := s.b.watcher.deliver inp.msg },
      timer := s.timer.expire inp.time }
  match inp.msg with
  | .event evt => handleEvent inp.env inp.time evt s1
  | .error err => handleError err s1

/-- The loop of `listen` over the messages it receives, in order. -/
def runLoop : List Input → Loop → Loop × List Effect
  | [], s => (s, [])
  | inp :: rest, s =>
      let r := loopStep inp s
      let r2 := runLoop rest r.1
      (r2.1, r.2 ++ r2.2)

/-- The first loop of `listen`: every root is walked and every directory found
is handed to `b.watcher.Add`. -/
def listenRoots (env : World) : List String → Watcher → Watcher × List Effect
  | [], w => (w, [])
  | dir :: rest, w =>
      let ds := AutoCommand.walk env.fs dir
      let r := addAll env ds.1 w
      let r2 := listenRoots env rest r.1
      (r2.1, ds.2 ++ r.2 ++ r2.2)

/-- The method `(b *AutoCommand) listen()` called at instant `now`: registers the roots,
creates the timer with `time.NewTimer(0)` and starts the loop. The channel it
returns is the field `C` of the timer of the resulting state. -/
def AutoCommand.listen (b : AutoCommand) (env : World) (now : Nat) : Loop × List Effect :=
  let r := listenRoots env b.dirs b.watcher
  ({ b := { b with watcher := r.1 }, timer := Timer.NewTimer now 0 },
   r.2 ++ [Effect.newTimer 0, Effect.go])

/-- What happens around one call of `RunFunc`: the instant of the call, the
environment `listen` finds, the messages its loop receives before the
interrupt or termination signal, and the instant of that signal. -/
structure Session where
  start : Nat
  env : World
  inputs : List Input
  signal : Nat

/-- Outcome of a call of `RunFunc` that returned: the engine afterwards, the
effects of the calling goroutine, of the loop goroutine of `listen` and of the
goroutine that ranges over the channel, and the instants sent on the channel
before the signal. -/
structure Run where
  b : AutoCommand
  main : List Effect
  loop : List Effect
  consumer : List Effect
  C : List Nat
deriving DecidableEq, Repr

/-- The engine at the receive `<-sig` of a call of `RunFunc` that found the flag
unset: the mutex is held, the flag is set, `listen` has registered the roots
and its loop has taken the messages of the session. The result is `none` for a
call that does not get there: one that waits in `Lock()`, or one that found the
flag set and returned. -/
def AutoCommand.RunFuncWaiting (b : AutoCommand) (ses : Session) : Option AutoCommand :=
  if b.runChecker.locked = true then none
  else
    let b1 : AutoCommand := { b with runChecker := { b.runChecker with locked := true } }
    if b1.runChecker.running = true then none
    else
      let b2 : AutoCommand := { b1 with runChecker := { b1.runChecker with running := true } }
      let l := b2.listen ses.env ses.start
      let r := runLoop ses.inputs l.1
      some r.1.b

/-- The error `RunFunc` builds with `fmt.Errorf` when the flag is set. -/
def alreadyRunning : String :=
  "wathcer.AutoCommand.RunFunc: the watcher is already running"

/-- The method `(b *AutoCommand) RunFunc(h)`. The action `h` is given by the effects of
its call for the instant received from the channel. The result is `none` when
the mutex is held at the call, which makes `Lock()` wait. The consumer
goroutine is taken to receive every instant the timer sends. -/
def AutoCommand.RunFunc (b : AutoCommand) (h : Nat → List Effect) (ses : Session) :
    Option Run :=
  if b.runChecker.locked = true then none
  else
    -- b.runChecker.Lock(); defer b.runChecker.Unlock()
    let b1 : AutoCommand := { b with runChecker := { b.runChecker with locked := true } }
    if b1.runChecker.running = true then
      some { b := { b1 with runChecker := { b1.runChecker with locked := false } },
             main := [Effect.lock, Effect.errHandle alreadyRunning, Effect.unlock],
             loop := [], consumer := [], C := [] }
    else
      let b2 : AutoCommand := { b1 with runChecker := { b1.runChecker with running := true } }
      let l := b2.listen ses.env ses.start
      let r := runLoop ses.inputs l.1
      let t := r.1.timer.expire ses.signal
      let b3 : AutoCommand := { r.1.b with watcher := r.1.b.watcher.Close }
      some { b := { b3 with runChecker := { b3.runChecker with locked := false } },
             main := [Effect.lock] ++ l.2 ++
               [Effect.signalNotify, Effect.go, Effect.awaitSignal, Effect.watcherClose,
                Effect.unlock],
             loop := r.2,
             consumer := t.C.flatMap (fun at_ => Effect.call :: h at_),
             C := t.C }

/-- The loop `for _, arg := range args { com += " " + arg }` of `RunCommand`,
started from `com`. -/
def commandLine (com : String) : List String → String
  | [] => com
  | arg :: rest => commandLine (com ++ (" " ++ arg)) rest

/-- The function literal `RunCommand` passes to `RunFunc`. `runErr` gives the
error returned by `cmd.Run()`, if any, for the call made at an instant. -/
def commandAction (command : String) (args : List String) (runErr : Nat → Option String)
    (at_ : Nat) : List Effect :=
  [Effect.logPrintf ("[start] running command: [" ++ commandLine command args ++ "]"),
   Effect.execRun command args] ++
  (match runErr at_ with
   | some err => [Effect.logPrintf ("[faild] got error: " ++ err)]
   | none => [Effect.logPrintf "[ok]"])

/-- The method `(b *AutoCommand) RunCommand(command, args...)`. -/
def AutoCommand.RunCommand (b : AutoCommand) (command : String) (args : List String)
    (runErr : Nat → Option String) (ses : Session) : Option Run :=
  b.RunFunc (commandAction command args runErr) ses

/-! ## Notions the specification uses -/

/-- The directories of a subtree: `DirUnder path n q` says that, `n` being the
object at `path`, `q` is `path` itself when that is a directory, or the path of
a directory below it. -/
inductive DirUnder : String → Node → String → Prop where
  | self (path : String) (readable : Bool) (entries : List (String × Node)) :
      DirUnder path (.dir readable entries) path
  | inside (path : String) (readable : Bool) (entries : List (String × Node))
      (name : String) (child : Node) (q : String) :
      (name, child) ∈ entries → DirUnder (filepath.Join path name) child q →
      DirUnder path (.dir readable entries) q

mutual
/-- A subtree can be traversed without error when every directory in it can be
listed. -/
def Node.traversable : Node → Bool
  | .file => true
  | .dir readable entries => readable && entriesTraversable entries
/-- Every entry of a listing can be traversed without error. -/
def entriesTraversable : List (String × Node) → Bool
  | [] => true
  | (_, child) :: rest => child.traversable && entriesTraversable rest
end

/-- Whether the run-guard mutex is held once the given effects have been
performed, `held` telling whether it was held before them. -/
def lockHeldAfter (held : Bool) : List Effect → Bool
  | [] => held
  | .lock :: rest => lockHeldAfter true rest
  | .unlock :: rest => lockHeldAfter false rest
  | _ :: rest => lockHeldAfter held rest

/-- Reports whether an effect is an operation on the run-guard mutex. -/
def Effect.isMutex : Effect → Bool
  | .lock => true
  | .unlock => true
  | _ => false

/-- The instants of a burst: each message comes no earlier than the one before
it and strictly less than three seconds after it. -/
def burstTimes : List Input → Prop
  | a :: b :: rest =>
      a.time ≤ b.time ∧ b.time < a.time + 3 * time.Second ∧ burstTimes (b :: rest)
  | _ => True

/-- The directories handed to `b.watcher.Add` by a list of effects, in order. -/
def addCalls : List Effect → List String
  | [] => []
  | .watcherAdd dir _ :: rest => dir :: addCalls rest
  | _ :: rest => addCalls rest

/-- The command line as the specification words it: the command name and the
arguments joined with single spaces. -/
def joinedWithSpaces (command : String) (args : List String) : String :=
  " ".intercalate (command :: args)

/-- A message is a qualifying event for an extension map when it is an event
whose path has an extension the map holds. -/
def Msg.qualifying (exts : List (String × Bool)) : Msg → Bool
  | .event evt => mapGet exts (filepath.Ext evt.Name)
  | .error _ => false

/-- The quiet period the specification promises before a trigger sent at
instant `at_`: at least three seconds have passed since `listen` was called at
`start`, and no qualifying event was taken by the loop during the three seconds
before `at_`. -/
def quietBefore (exts : List (String × Bool)) (start : Nat) (inputs : List Input)
    (at_ : Nat) : Prop :=
  start + 3 * time.Second ≤ at_ ∧
  ∀ inp ∈ inputs, inp.msg.qualifying exts = true →
    inp.time + 3 * time.Second ≤ at_ ∨ at_ ≤ inp.time

/-! ## Concrete data -/

/-- A directory holding one empty directory `x`. -/
def treeSub : Node :=
  .dir true [("x", .dir true [])]

/-- A root `R` holding `a.go`, `b.txt` and the directory `sub` with its
directory `x`. -/
def treeR : Node :=
  .dir true [("R", .dir true [("a.go", .file), ("b.txt", .file), ("sub", treeSub)])]

/-- The same root after `sub` has been removed. -/
def treeGone : Node :=
  .dir true [("R", .dir true [("a.go", .file), ("b.txt", .file)])]

/-- A directory holding a directory `a` that cannot be listed and a directory
`b`. -/
def treeSubLocked : Node :=
  .dir true [("a", .dir false []), ("b", .dir true [])]

/-- A root `R` whose directory `sub` is `treeSubLocked`. -/
def treeLocked : Node :=
  .dir true [("R", .dir true [("sub", treeSubLocked)])]

/-- An environment in which every registration is accepted. -/
def envR : World := { fs := treeR, addFails := fun _ _ => false }

/-- An environment in which the notification capability accepts no further
registration (the limit on the number of watches is reached). -/
def envFull : World := { fs := treeR, addFails := fun _ _ => true }

/-- The environment after `sub` has been removed. -/
def envGone : World := { fs := treeGone, addFails := fun _ _ => false }

/-- An environment over `treeLocked`. -/
def envLocked : World := { fs := treeLocked, addFails := fun _ _ => false }

/-- An engine as `NewAutoCommand([".go"], ...)` followed by `Watch("/R")`
leaves it. -/
def engineGo : AutoCommand :=
  { dirs := ["/R"], exts := newExts [".go"],
    watcher := { watches := [], closed := false },
    runChecker := { locked := false, running := false } }

/-- The loop of `engineGo` while it watches `/R` and `/R/sub`, timer idle. -/
def loopGo : Loop :=
  { b := { engineGo with watcher := { watches := ["/R", "/R/sub"], closed := false } },
    timer := { pending := none, C := [] } }

/-- The loop of `engineGo` while it watches `/R` only, timer idle. -/
def loopRoot : Loop :=
  { b := { engineGo with watcher := { watches := ["/R"], closed := false } },
    timer := { pending := none, C := [] } }

/-- The engine `engineGo` after a call of `RunFunc` has returned. -/
def engineRan : AutoCommand :=
  { engineGo with watcher := { watches := [], closed := true },
                  runChecker := { locked := false, running := true } }

/-- The engine `engineGo` while a first call of `RunFunc` waits for the signal:
the roots are registered, the flag is set and the mutex is held. -/
def engineBusy : AutoCommand :=
  { engineGo with watcher := { watches := ["/R", "/R/sub", "/R/sub/x"], closed := false },
                  runChecker := { locked := true, running := true } }

/-- A session with two writes to `.go` files one second apart. -/
def sessionGo : Session :=
  { start := 0, env := envR,
    inputs := [{ time := 1000000000, env := envR, msg := .event ⟨"/R/a.go", fsnotify.Write⟩ },
               { time := 2000000000, env := envR, msg := .event ⟨"/R/a.go", fsnotify.Write⟩ }],
    signal := 9000000000 }

/-- A session of one second in which the loop receives no message at all. -/
def sessionIdle : Session :=
  { start := 0, env := envR, inputs := [], signal := 1000000000 }

/-! ## Lemmas -/

open filepath

theorem mapGet_foldl_mapSet (E : List String) (m : List (String × Bool)) (x : String) :
    mapGet (E.foldl (fun es ext => mapSet es ext true) m) x = true ↔ x ∈ E ∨ mapGet m x = true := by
  induction E generalizing m with
  | nil => simp
  | cons e rest ih =>
      rw [List.foldl_cons, ih]
      simp only [List.mem_cons, mapSet, mapGet]
      by_cases h : e = x
      · simp [h]
      · have h2 : ¬ x = e := fun h3 => h h3.symm
        simp [h, h2]

theorem mapGet_newExts (E : List String) (x : String) :
    mapGet (newExts E) x = true ↔ x ∈ E := by
  unfold newExts
  rw [mapGet_foldl_mapSet]
  simp [mapGet]

theorem addAll_effects (env : World) (ds : List String) (w : Watcher) :
    ∀ e ∈ (addAll env ds w).2, ∃ d ok, e = Effect.watcherAdd d ok := by
  induction ds generalizing w with
  | nil => simp [addAll]
  | cons d rest ih =>
      intro e he
      simp only [addAll, List.mem_cons] at he
      rcases he with he | he
      · exact ⟨_, _, he⟩
      · exact ih _ e he

theorem removeAll_effects (ds : List String) (w : Watcher) :
    ∀ e ∈ (removeAll ds w).2, ∃ d ok, e = Effect.watcherRemove d ok := by
  induction ds generalizing w with
  | nil => simp [removeAll]
  | cons d rest ih =>
      intro e he
      simp only [removeAll, List.mem_cons] at he
      rcases he with he | he
      · exact ⟨_, _, he⟩
      · exact ih _ e he

theorem walk_effects (fs : Node) (dir : String) :
    ∀ e ∈ (AutoCommand.walk fs dir).2, ∃ msg, e = Effect.errHandle msg := by
  intro e he
  unfold AutoCommand.walk at he
  simp only at he
  split at he
  · simp at he; exact ⟨_, he⟩
  · simp at he

/-- What the event branch does when the extension of the path is not in the map:
the timer is left as it was and no effect is a timer reset. -/
theorem handleEvent_not_qualifying (env : World) (now : Nat) (evt : Event) (s : Loop)
    (h : mapGet s.b.exts (filepath.Ext evt.Name) = false) :
    (handleEvent env now evt s).1.timer = s.timer ∧
    ∀ d, Effect.timerReset d ∉ (handleEvent env now evt s).2 := by
  unfold handleEvent
  simp only [h, Bool.false_eq_true, if_false]
  split
  · split
    · simp
    · split
      · split
        · refine ⟨rfl, ?_⟩
          intro d hd
          simp only [List.mem_append] at hd
          rcases hd with hd | hd
          · obtain ⟨m, hm⟩ := walk_effects _ _ _ hd
            cases hm
          · obtain ⟨a, ok, hm⟩ := addAll_effects _ _ _ _ hd
            cases hm
        · split
          · refine ⟨rfl, ?_⟩
            intro d hd
            simp only [List.mem_append] at hd
            rcases hd with hd | hd
            · obtain ⟨m, hm⟩ := walk_effects _ _ _ hd
              cases hm
            · obtain ⟨a, ok, hm⟩ := removeAll_effects _ _ _ hd
              cases hm
          · simp
      · simp
  · simp

theorem handleEvent_qualifying (env : World) (now : Nat) (evt : Event) (s : Loop)
    (h : mapGet s.b.exts (filepath.Ext evt.Name) = true) :
    handleEvent env now evt s =
      ({ s with timer := { s.timer with pending := some (now + 3 * time.Second) } },
       [Effect.timerReset (3 * time.Second)]) := by
  unfold handleEvent
  simp [h, Timer.Reset]

theorem loopStep_qualifying (inp : Input) (s : Loop)
    (h : inp.msg.qualifying s.b.exts = true) :
    loopStep inp s =
      ({ b := { s.b with watcher := s.b.watcher.deliver inp.msg },
         timer := { pending := some (inp.time + 3 * time.Second),
                    C := (s.timer.expire inp.time).C } },
       [Effect.timerReset (3 * time.Second)]) := by
  unfold loopStep
  cases hm : inp.msg with
  | error err => rw [hm] at h; simp [Msg.qualifying] at h
  | event evt =>
      rw [hm] at h
      simp only [Msg.qualifying] at h
      simp only
      rw [handleEvent_qualifying _ _ _ _ (by simpa using h)]

theorem expire_not_due (t : Timer) (at_ now : Nat) (hp : t.pending = some at_) (h : now < at_) :
    t.expire now = t := by
  unfold Timer.expire
  rw [hp]
  simp only
  rw [if_neg (by omega)]

theorem runLoop_burst (rest : List Input) (first : Input) (s : Loop)
    (hq : ∀ inp ∈ first :: rest, inp.msg.qualifying s.b.exts = true)
    (hgap : burstTimes (first :: rest)) :
    (runLoop (first :: rest) s).1.timer =
      { pending := some (((first :: rest).getLast (by simp)).time + 3 * time.Second),
        C := (s.timer.expire first.time).C } := by
  induction rest generalizing first s with
  | nil =>
      simp only [runLoop, List.getLast_singleton]
      rw [loopStep_qualifying first s (hq first (by simp))]
  | cons second rest ih =>
      have h1 := loopStep_qualifying first s (hq first (by simp))
      obtain ⟨hle, hlt, hrest⟩ := hgap
      have step : runLoop (first :: second :: rest) s
          = ((runLoop (second :: rest) (loopStep first s).1).1,
             (loopStep first s).2 ++ (runLoop (second :: rest) (loopStep first s).1).2) := rfl
      rw [step]
      simp only
      rw [h1]
      simp only
      rw [ih second _ (by
            intro inp hin
            exact hq inp (List.mem_cons_of_mem _ hin)) hrest]
      have hk : Timer.expire
          ⟨some (first.time + 3 * time.Second), (s.timer.expire first.time).C⟩ second.time
          = ⟨some (first.time + 3 * time.Second), (s.timer.expire first.time).C⟩ :=
        expire_not_due _ _ _ rfl hlt
      simp only [hk]
      rw [List.getLast_cons (List.cons_ne_nil second rest)]

theorem expire_pending (C : List Nat) (at_ now : Nat) :
    (Timer.expire { pending := some at_, C := C } now).C =
      C ++ (if at_ ≤ now then [at_] else []) := by
  unfold Timer.expire
  by_cases h : at_ ≤ now <;> simp [h]

theorem dirUnder_file (p q : String) : ¬ DirUnder p Node.file q := by
  intro h
  cases h

theorem dirUnder_dir (p q : String) (r : Bool) (es : List (String × Node)) :
    DirUnder p (.dir r es) q ↔
      q = p ∨ ∃ name child, (name, child) ∈ es ∧ DirUnder (Join p name) child q := by
  constructor
  · intro h
    cases h with
    | self => exact Or.inl rfl
    | inside _ _ _ name child _ hmem hsub => exact Or.inr ⟨name, child, hmem, hsub⟩
  · intro h
    rcases h with h | ⟨name, child, hmem, hsub⟩
    · subst h
      exact DirUnder.self _ _ _
    · exact DirUnder.inside _ _ _ name child _ hmem hsub

mutual
theorem walkNode_traversable : ∀ (n : Node) (p : String), n.traversable = true →
    (walkNode p n).2 = none ∧ ∀ q, q ∈ (walkNode p n).1 ↔ DirUnder p n q
  | .file, p, _ => by
      refine ⟨by simp [walkNode], ?_⟩
      intro q
      simp [walkNode, dirUnder_file]
  | .dir r es, p, h => by
      simp only [Node.traversable, Bool.and_eq_true] at h
      obtain ⟨hr, hes⟩ := h
      have ih := walkEntries_traversable es p hes
      subst hr
      refine ⟨by simp [walkNode, ih.1], ?_⟩
      intro q
      rw [dirUnder_dir]
      simp [walkNode, ih.2]
theorem walkEntries_traversable : ∀ (es : List (String × Node)) (p : String),
    entriesTraversable es = true →
    (walkEntries p es).2 = none ∧
    ∀ q, q ∈ (walkEntries p es).1 ↔
      ∃ name child, (name, child) ∈ es ∧ DirUnder (Join p name) child q
  | [], p, _ => by
      simp [walkEntries]
  | (name, child) :: rest, p, h => by
      simp only [entriesTraversable, Bool.and_eq_true] at h
      obtain ⟨hc, hrest⟩ := h
      have ih1 := walkNode_traversable child (Join p name) hc
      have ih2 := walkEntries_traversable rest p hrest
      have hw : walkNode (Join p name) child = ((walkNode (Join p name) child).1, none) := by
        rw [← ih1.1]
      constructor
      · rw [walkEntries, hw]
        simp [ih2.1]
      · intro q
        rw [walkEntries, hw]
        simp only [List.mem_append, ih1.2, ih2.2, List.mem_cons]
        constructor
        · rintro (h1 | ⟨n2, c2, hm, hd⟩)
          · exact ⟨name, child, Or.inl rfl, h1⟩
          · exact ⟨n2, c2, Or.inr hm, hd⟩
        · rintro ⟨n2, c2, hm | hm, hd⟩
          · cases hm
            exact Or.inl hd
          · exact Or.inr ⟨n2, c2, hm, hd⟩
end

theorem walk_traversable (fs : Node) (dir : String) (t : Node)
    (hfound : lookup fs dir = some t) (hdir : t.IsDir = true) (htrav : t.traversable = true) :
    (∀ q, q ∈ (AutoCommand.walk fs dir).1 ↔ DirUnder dir t q) ∧
    (AutoCommand.walk fs dir).2 = [] := by
  have hw := walkNode_traversable t dir htrav
  unfold AutoCommand.walk Walk
  simp only [hfound, hw.1]
  refine ⟨?_, trivial⟩
  intro q
  simp only [List.mem_cons, hw.2]
  constructor
  · rintro (h | h)
    · subst h
      cases t with
      | file => simp [Node.IsDir] at hdir
      | dir r es => exact DirUnder.self _ _ _
    · exact h
  · intro h
    exact Or.inr h

theorem addCalls_append (l1 l2 : List Effect) :
    addCalls (l1 ++ l2) = addCalls l1 ++ addCalls l2 := by
  induction l1 with
  | nil => rfl
  | cons e rest ih =>
      cases e <;> simp [addCalls, ih]

theorem addCalls_addAll (env : World) (ds : List String) (w : Watcher) :
    addCalls (addAll env ds w).2 = ds := by
  induction ds generalizing w with
  | nil => rfl
  | cons d rest ih => simp [addAll, addCalls, ih]

theorem addCalls_walk (fs : Node) (dir : String) :
    addCalls (AutoCommand.walk fs dir).2 = [] := by
  unfold AutoCommand.walk
  simp only
  split <;> rfl

theorem addCalls_listenRoots (env : World) (dirs : List String) (w : Watcher) :
    addCalls (listenRoots env dirs w).2 =
      dirs.flatMap (fun root => (AutoCommand.walk env.fs root).1) := by
  induction dirs generalizing w with
  | nil => rfl
  | cons d rest ih =>
      simp only [listenRoots, addCalls_append, addCalls_walk, addCalls_addAll, ih,
        List.flatMap_cons, List.nil_append]

theorem add_watches (env : World) (w : Watcher) (d q : String) (hq : q ∈ w.watches) :
    q ∈ (w.Add env d).1.watches := by
  unfold Watcher.Add
  split
  · exact hq
  · split
    · exact hq
    · simp [hq]

theorem add_closed (env : World) (w : Watcher) (d : String) :
    (w.Add env d).1.closed = w.closed := by
  unfold Watcher.Add
  split
  · rfl
  · split <;> rfl

theorem addAll_keeps (env : World) (ds : List String) (w : Watcher) (q : String)
    (hq : q ∈ w.watches) : q ∈ (addAll env ds w).1.watches := by
  induction ds generalizing w with
  | nil => exact hq
  | cons d rest ih => exact ih _ (add_watches env w d q hq)

theorem addAll_closed (env : World) (ds : List String) (w : Watcher) :
    (addAll env ds w).1.closed = w.closed := by
  induction ds generalizing w with
  | nil => rfl
  | cons d rest ih =>
      simp only [addAll]
      rw [ih, add_closed]

theorem addAll_registers (env : World) (hadd : ∀ ws d, env.addFails ws d = false)
    (ds : List String) (w : Watcher) (hopen : w.closed = false) (q : String) (hq : q ∈ ds) :
    q ∈ (addAll env ds w).1.watches := by
  induction ds generalizing w with
  | nil => simp at hq
  | cons d rest ih =>
      simp only [addAll]
      rcases List.mem_cons.mp hq with h | h
      · subst h
        apply addAll_keeps
        unfold Watcher.Add
        simp only [hopen, hadd, Bool.false_eq_true, or_self, if_false]
        split
        · assumption
        · simp
      · exact ih _ (by rw [add_closed]; exact hopen) h

theorem listenRoots_keeps (env : World) (dirs : List String) (w : Watcher) (q : String)
    (hq : q ∈ w.watches) : q ∈ (listenRoots env dirs w).1.watches := by
  induction dirs generalizing w with
  | nil => exact hq
  | cons d rest ih => exact ih _ (addAll_keeps env _ w q hq)

theorem listenRoots_registers (env : World) (hadd : ∀ ws d, env.addFails ws d = false)
    (dirs : List String) (w : Watcher) (hopen : w.closed = false)
    (root : String) (hroot : root ∈ dirs) (q : String)
    (hq : q ∈ (AutoCommand.walk env.fs root).1) :
    q ∈ (listenRoots env dirs w).1.watches := by
  induction dirs generalizing w with
  | nil => simp at hroot
  | cons d rest ih =>
      simp only [listenRoots]
      rcases List.mem_cons.mp hroot with h | h
      · subst h
        exact listenRoots_keeps env rest _ q (addAll_registers env hadd _ w hopen q hq)
      · exact ih _ (by rw [addAll_closed]; exact hopen) h

theorem intercalate_go_eq (s acc : String) (l : List String) :
    String.intercalate.go acc s l = l.foldl (fun com arg => com ++ (s ++ arg)) acc := by
  induction l generalizing acc with
  | nil => rfl
  | cons a rest ih =>
      simp only [String.intercalate.go, List.foldl_cons, ih, String.append_assoc]

theorem commandLine_eq_foldl (com : String) (args : List String) :
    commandLine com args = args.foldl (fun com arg => com ++ (" " ++ arg)) com := by
  induction args generalizing com with
  | nil => rfl
  | cons a rest ih => simp only [commandLine, List.foldl_cons, ih]

theorem handleEvent_engine (env : World) (now : Nat) (evt : Event) (s : Loop) :
    (handleEvent env now evt s).1.b.runChecker = s.b.runChecker ∧
    (handleEvent env now evt s).1.b.exts = s.b.exts ∧
    (handleEvent env now evt s).1.b.dirs = s.b.dirs := by
  unfold handleEvent
  simp only
  split
  · exact ⟨rfl, rfl, rfl⟩
  · split
    · split
      · exact ⟨rfl, rfl, rfl⟩
      · split
        · split
          · exact ⟨rfl, rfl, rfl⟩
          · split <;> exact ⟨rfl, rfl, rfl⟩
        · exact ⟨rfl, rfl, rfl⟩
    · exact ⟨rfl, rfl, rfl⟩

theorem loopStep_engine (inp : Input) (s : Loop) :
    (loopStep inp s).1.b.runChecker = s.b.runChecker ∧
    (loopStep inp s).1.b.exts = s.b.exts ∧
    (loopStep inp s).1.b.dirs = s.b.dirs := by
  unfold loopStep
  cases inp.msg with
  | event evt => exact handleEvent_engine _ _ _ _
  | error err => exact ⟨rfl, rfl, rfl⟩

theorem runLoop_engine (inputs : List Input) (s : Loop) :
    (runLoop inputs s).1.b.runChecker = s.b.runChecker ∧
    (runLoop inputs s).1.b.exts = s.b.exts ∧
    (runLoop inputs s).1.b.dirs = s.b.dirs := by
  induction inputs generalizing s with
  | nil => exact ⟨rfl, rfl, rfl⟩
  | cons inp rest ih =>
      have h1 := loopStep_engine inp s
      have h2 := ih (loopStep inp s).1
      simp only [runLoop]
      exact ⟨h2.1.trans h1.1, h2.2.1.trans h1.2.1, h2.2.2.trans h1.2.2⟩

theorem RunFunc_flag_set (b : AutoCommand) (h : Nat → List Effect) (ses : Session) (r : Run)
    (hr : b.RunFunc h ses = some r) :
    r.b.runChecker.running = true ∧ r.b.runChecker.locked = false := by
  unfold AutoCommand.RunFunc at hr
  split at hr
  · cases hr
  · simp only at hr
    split at hr
    · cases hr
      constructor
      · assumption
      · rfl
    · cases hr
      refine ⟨?_, rfl⟩
      simp only
      rw [(runLoop_engine _ _).1]
      rfl

theorem RunFunc_running (b : AutoCommand) (h : Nat → List Effect) (ses : Session)
    (hrun : b.runChecker.running = true) (hfree : b.runChecker.locked = false) :
    b.RunFunc h ses =
      some { b := b,
             main := [Effect.lock, Effect.errHandle alreadyRunning, Effect.unlock],
             loop := [], consumer := [], C := [] } := by
  obtain ⟨dirs, exts, w, ⟨locked, running⟩⟩ := b
  simp only at hrun hfree
  subst hrun hfree
  simp [AutoCommand.RunFunc]

theorem lockHeldAfter_noMutex (l : List Effect) (held : Bool)
    (h : ∀ e ∈ l, e.isMutex = false) : lockHeldAfter held l = held := by
  induction l generalizing held with
  | nil => rfl
  | cons e rest ih =>
      have he := h e (by simp)
      have hrest : ∀ x ∈ rest, x.isMutex = false := fun x hx => h x (by simp [hx])
      cases e <;> simp [Effect.isMutex] at he <;> simp [lockHeldAfter, ih _ hrest]

theorem lockHeldAfter_append (l1 l2 : List Effect) (held : Bool) :
    lockHeldAfter held (l1 ++ l2) = lockHeldAfter (lockHeldAfter held l1) l2 := by
  induction l1 generalizing held with
  | nil => rfl
  | cons e rest ih =>
      cases e <;> simp [lockHeldAfter, ih]

/-- A trace that locks, then performs effects that do not touch the mutex, then
unlocks: the mutex is held after every proper non-empty initial part of it. -/
theorem lockHeld_between (mid : List Effect) (hmid : ∀ e ∈ mid, e.isMutex = false) :
    (∀ n, 0 < n → n < (Effect.lock :: (mid ++ [Effect.unlock])).length →
      lockHeldAfter false ((Effect.lock :: (mid ++ [Effect.unlock])).take n) = true) ∧
    lockHeldAfter false (Effect.lock :: (mid ++ [Effect.unlock])) = false := by
  constructor
  · intro n hpos hlt
    obtain ⟨k, rfl⟩ : ∃ k, n = k + 1 := ⟨n - 1, by omega⟩
    simp only [List.length_cons, List.length_append, List.length_singleton, List.length_nil] at hlt
    have hk : k ≤ mid.length := by omega
    rw [List.take_succ_cons, List.take_append_of_le_length hk]
    simp only [lockHeldAfter]
    apply lockHeldAfter_noMutex
    intro e he
    exact hmid e (List.mem_of_mem_take he)
  · simp only [lockHeldAfter]
    rw [lockHeldAfter_append, lockHeldAfter_noMutex mid true hmid]
    rfl

theorem listenRoots_noMutex (env : World) (dirs : List String) (w : Watcher) :
    ∀ e ∈ (listenRoots env dirs w).2, e.isMutex = false := by
  induction dirs generalizing w with
  | nil => simp [listenRoots]
  | cons d rest ih =>
      intro e he
      simp only [listenRoots, List.mem_append] at he
      rcases he with (he | he) | he
      · obtain ⟨m, rfl⟩ := walk_effects _ _ e he
        rfl
      · obtain ⟨a, ok, rfl⟩ := addAll_effects _ _ _ e he
        rfl
      · exact ih _ e he

theorem listen_noMutex (b : AutoCommand) (env : World) (now : Nat) :
    ∀ e ∈ (b.listen env now).2, e.isMutex = false := by
  intro e he
  simp only [AutoCommand.listen, List.mem_append, List.mem_cons, List.mem_singleton,
    List.mem_nil_iff, or_false] at he
  rcases he with he | he | he
  · exact listenRoots_noMutex _ _ _ e he
  · subst he; rfl
  · subst he; rfl

/-- The trace of the calling goroutine of `RunFunc` is a lock, effects that do
not touch the mutex, and an unlock. -/
theorem RunFunc_main_shape (b : AutoCommand) (h : Nat → List Effect) (ses : Session) (r : Run)
    (hr : b.RunFunc h ses = some r) :
    ∃ mid, r.main = Effect.lock :: (mid ++ [Effect.unlock]) ∧
      (∀ e ∈ mid, e.isMutex = false) ∧
      (b.runChecker.running = false →
        ∃ pre, mid = pre ++ [Effect.awaitSignal, Effect.watcherClose] ∧
          Effect.newTimer 0 ∈ pre) := by
  unfold AutoCommand.RunFunc at hr
  split at hr
  · cases hr
  · simp only at hr
    split at hr
    · rename_i hrun
      cases hr
      refine ⟨[Effect.errHandle alreadyRunning], rfl, ?_, ?_⟩
      · intro e he
        simp only [List.mem_singleton] at he
        subst he
        rfl
      · intro hfalse
        rw [hfalse] at hrun
        cases hrun
    · cases hr
      refine ⟨(AutoCommand.listen
          { dirs := b.dirs, exts := b.exts, watcher := b.watcher,
            runChecker := { locked := true, running := true } } ses.env ses.start).2 ++
        [Effect.signalNotify, Effect.go, Effect.awaitSignal, Effect.watcherClose], ?_, ?_, ?_⟩
      · simp
      · intro e he
        simp only [List.mem_append, List.mem_cons, List.mem_singleton, List.mem_nil_iff,
          or_false] at he
        rcases he with he | he | he | he | he
        · exact listen_noMutex _ _ _ e he
        all_goals (subst he; rfl)
      · intro _
        refine ⟨(AutoCommand.listen
            { dirs := b.dirs, exts := b.exts, watcher := b.watcher,
              runChecker := { locked := true, running := true } } ses.env ses.start).2 ++
          [Effect.signalNotify, Effect.go], ?_, ?_⟩
        · simp
        · simp [AutoCommand.listen]

/-- The event branch on a created event whose path has no extension and names a
directory: the directory is walked and every path found is handed to
`b.watcher.Add`. -/
theorem handleEvent_created (env : World) (now : Nat) (evt : Event) (s : Loop) (t : Node)
    (hcreate : evt.Op &&& fsnotify.Create = fsnotify.Create)
    (hext : filepath.Ext evt.Name = "")
    (hnot : mapGet s.b.exts "" = false)
    (hfound : lookup env.fs evt.Name = some t) (hdir : t.IsDir = true) :
    handleEvent env now evt s =
      ({ s with b := { s.b with
            watcher := (addAll env (AutoCommand.walk env.fs evt.Name).1 s.b.watcher).1 } },
       (AutoCommand.walk env.fs evt.Name).2 ++
         (addAll env (AutoCommand.walk env.fs evt.Name).1 s.b.watcher).2) := by
  unfold handleEvent
  simp [hext, hnot, os.Stat, hfound, hdir, hcreate]

/-- The event branch on a removed event whose path has no extension and names a
directory that exists when the event is taken: the directory is walked and
every path found is handed to `b.watcher.Remove`. -/
theorem handleEvent_removed (env : World) (now : Nat) (evt : Event) (s : Loop) (t : Node)
    (hcreate : ¬ evt.Op &&& fsnotify.Create = fsnotify.Create)
    (hremove : evt.Op &&& fsnotify.Remove = fsnotify.Remove)
    (hext : filepath.Ext evt.Name = "")
    (hnot : mapGet s.b.exts "" = false)
    (hfound : lookup env.fs evt.Name = some t) (hdir : t.IsDir = true) :
    handleEvent env now evt s =
      ({ s with b := { s.b with
            watcher := (removeAll (AutoCommand.walk env.fs evt.Name).1 s.b.watcher).1 } },
       (AutoCommand.walk env.fs evt.Name).2 ++
         (removeAll (AutoCommand.walk env.fs evt.Name).1 s.b.watcher).2) := by
  unfold handleEvent
  simp [hext, hnot, os.Stat, hfound, hdir, hcreate, hremove]

/-- The event branch when `os.Stat` fails on a path without extension. -/
theorem handleEvent_stat_error (env : World) (now : Nat) (evt : Event) (s : Loop)
    (hext : filepath.Ext evt.Name = "")
    (hnot : mapGet s.b.exts "" = false)
    (hmissing : lookup env.fs evt.Name = none) :
    handleEvent env now evt s =
      (s, [Effect.errHandle ("watcher.AutoCommand.listen(): " ++
             ("stat " ++ evt.Name ++ ": no such file or directory"))]) := by
  unfold handleEvent
  simp [hext, hnot, os.Stat, hmissing]

theorem filter_errHandle_addAll (env : World) (ds : List String) (w : Watcher) :
    (addAll env ds w).2.filter Effect.isErrHandle = [] := by
  rw [List.filter_eq_nil_iff]
  intro e he
  obtain ⟨d, ok, rfl⟩ := addAll_effects env ds w e he
  simp [Effect.isErrHandle]

theorem filter_errHandle_removeAll (ds : List String) (w : Watcher) :
    (removeAll ds w).2.filter Effect.isErrHandle = [] := by
  rw [List.filter_eq_nil_iff]
  intro e he
  obtain ⟨d, ok, rfl⟩ := removeAll_effects ds w e he
  simp [Effect.isErrHandle]

theorem filter_errHandle_walk (fs : Node) (dir : String) :
    (AutoCommand.walk fs dir).2.filter Effect.isErrHandle = (AutoCommand.walk fs dir).2 := by
  rw [List.filter_eq_self]
  intro e he
  obtain ⟨m, rfl⟩ := walk_effects fs dir e he
  rfl

theorem filter_errHandle_listenRoots (env : World) (dirs : List String) (w : Watcher) :
    (listenRoots env dirs w).2.filter Effect.isErrHandle =
      dirs.flatMap (fun root => (AutoCommand.walk env.fs root).2) := by
  induction dirs generalizing w with
  | nil => rfl
  | cons d rest ih =>
      simp only [listenRoots, List.filter_append, filter_errHandle_walk,
        filter_errHandle_addAll, ih, List.flatMap_cons, List.append_nil]

/-! ## The claims -/

/-- C1. One pass of the event branch of the loop of `listen`, for an engine whose
extension map was built by `NewAutoCommand` from the extensions `E`: the timer is
reset exactly when the extension of the path of the event is in `E`; when it is,
the timer is set to expire three seconds after the current instant and nothing
else changes; when it is not, the timer is left alone, and if moreover the
extension is not empty the whole state is unchanged and there is no effect at
all (no registration, no call of the error handler). -/
theorem listen_event_resets_timer_iff_ext_member (E : List String) (env : World) (now : Nat)
    (evt : Event) (s : Loop) (hE : s.b.exts = newExts E) :
    (Effect.timerReset (3 * time.Second) ∈ (handleEvent env now evt s).2 ↔
      filepath.Ext evt.Name ∈ E) ∧
    (filepath.Ext evt.Name ∈ E →
      handleEvent env now evt s =
        ({ s with timer := { s.timer with pending := some (now + 3 * time.Second) } },
         [Effect.timerReset (3 * time.Second)])) ∧
    (filepath.Ext evt.Name ∉ E →
      (handleEvent env now evt s).1.timer = s.timer ∧
      ∀ d, Effect.timerReset d ∉ (handleEvent env now evt s).2) ∧
    (filepath.Ext evt.Name ∉ E → filepath.Ext evt.Name ≠ "" →
      handleEvent env now evt s = (s, [])) := by
  have key : mapGet s.b.exts (filepath.Ext evt.Name) = true ↔ filepath.Ext evt.Name ∈ E := by
    rw [hE]; exact mapGet_newExts E _
  refine ⟨?_, ?_, ?_, ?_⟩
  · constructor
    · intro hmem
      by_contra hne
      have hf : mapGet s.b.exts (filepath.Ext evt.Name) = false := by
        cases hc : mapGet s.b.exts (filepath.Ext evt.Name) with
        | false => rfl
        | true => exact absurd (key.mp hc) hne
      exact (handleEvent_not_qualifying env now evt s hf).2 _ hmem
    · intro hin
      rw [handleEvent_qualifying env now evt s (key.mpr hin)]
      simp
  · intro hin
    exact handleEvent_qualifying env now evt s (key.mpr hin)
  · intro hne
    have hf : mapGet s.b.exts (filepath.Ext evt.Name) = false := by
      cases hc : mapGet s.b.exts (filepath.Ext evt.Name) with
      | false => rfl
      | true => exact absurd (key.mp hc) hne
    exact handleEvent_not_qualifying env now evt s hf
  · intro hne hext
    have hf : mapGet s.b.exts (filepath.Ext evt.Name) = false := by
      cases hc : mapGet s.b.exts (filepath.Ext evt.Name) with
      | false => rfl
      | true => exact absurd (key.mp hc) hne
    unfold handleEvent
    simp [hf, hext]

/-- Witness for C1 with the extension set `.go`: a write to `/R/a.go` resets the
timer of `loopGo` to three seconds after the instant 7, and a write to
`/R/b.txt` leaves the timer, the watch set and the error handler untouched. -/
theorem listen_event_resets_timer_iff_ext_member_witness :
    (loopGo.b.exts = newExts [".go"] ∧
      filepath.Ext "/R/a.go" ∈ [".go"] ∧
      handleEvent envR 7 ⟨"/R/a.go", fsnotify.Write⟩ loopGo =
        ({ loopGo with timer := { loopGo.timer with pending := some (7 + 3 * time.Second) } },
         [Effect.timerReset (3 * time.Second)])) ∧
    (filepath.Ext "/R/b.txt" ∉ [".go"] ∧ filepath.Ext "/R/b.txt" ≠ "" ∧
      handleEvent envR 7 ⟨"/R/b.txt", fsnotify.Write⟩ loopGo = (loopGo, [])) :=
  ⟨⟨rfl, by decide,
    (listen_event_resets_timer_iff_ext_member [".go"] envR 7 ⟨"/R/a.go", fsnotify.Write⟩
      loopGo rfl).2.1 (by decide)⟩,
   ⟨by decide, by decide,
    (listen_event_resets_timer_iff_ext_member [".go"] envR 7 ⟨"/R/b.txt", fsnotify.Write⟩
      loopGo rfl).2.2.2 (by decide) (by decide)⟩⟩

/-- C2. A burst of qualifying events, each less than three seconds after the one
before it, taken by the loop of `listen` in any state: once the first event of
the burst has been taken, the timer holds one pending expiry, three seconds
after the last event of the burst, and has sent nothing new; with no further
message, up to any later instant `horizon` the channel receives exactly one new
value if `horizon` has reached that expiry, the instant of the last event plus
three seconds, and none before. -/
theorem burst_emits_one_trigger (inputs : List Input) (hne : inputs ≠ []) (s : Loop)
    (horizon : Nat)
    (hq : ∀ inp ∈ inputs, inp.msg.qualifying s.b.exts = true)
    (hgap : burstTimes inputs) :
    (runLoop inputs s).1.timer.pending =
      some ((inputs.getLast hne).time + 3 * time.Second) ∧
    (runLoop inputs s).1.timer.C = (s.timer.expire (inputs.head hne).time).C ∧
    ((runLoop inputs s).1.timer.expire horizon).C =
      (s.timer.expire (inputs.head hne).time).C ++
        (if (inputs.getLast hne).time + 3 * time.Second ≤ horizon
         then [(inputs.getLast hne).time + 3 * time.Second] else []) := by
  cases inputs with
  | nil => exact absurd rfl hne
  | cons first rest =>
      rw [runLoop_burst rest first s hq hgap]
      refine ⟨rfl, rfl, ?_⟩
      simp only [List.head_cons]
      exact expire_pending _ _ _

/-- Witness for C2: the two writes of `sessionGo`, one second apart, taken by the
loop in the state `listen` leaves at instant 0. The timer created by `listen`
has fired at instant 0, before the first write; after the burst the channel
receives one more value, three seconds after the second write. -/
theorem burst_emits_one_trigger_witness :
    sessionGo.inputs ≠ [] ∧
    (∀ inp ∈ sessionGo.inputs,
      inp.msg.qualifying (engineGo.listen envR 0).1.b.exts = true) ∧
    burstTimes sessionGo.inputs ∧
    ((runLoop sessionGo.inputs (engineGo.listen envR 0).1).1.timer.expire 9000000000).C =
      [0] ++ [2000000000 + 3 * time.Second] :=
  ⟨List.cons_ne_nil _ _, by decide, ⟨by decide, by decide, trivial⟩,
   (burst_emits_one_trigger sessionGo.inputs (List.cons_ne_nil _ _) (engineGo.listen envR 0).1
      9000000000 (by decide) ⟨by decide, by decide, trivial⟩).2.2.trans (by decide)⟩

/-- C3. The timer that `listen` creates with `time.NewTimer(0)` is due at the very
instant `listen` is called: with no message taken by the loop, the channel that
`listen` returns has received that instant. This first trigger is not preceded
by the quiet period, whatever the loop receives later: three seconds have not
passed since the call. In the session `sessionIdle`, where nothing changes on
disk, `RunFunc` on `engineGo` has called the action once, for the trigger sent
at instant 0. -/
theorem listen_first_trigger_not_quiet (b : AutoCommand) (env : World) (now : Nat)
    (inputs : List Input) :
    (b.listen env now).1.timer.pending = some now ∧
    ((b.listen env now).1.timer.expire now).C = [now] ∧
    ¬ quietBefore b.exts now inputs now ∧
    (engineGo.RunFunc (fun _ => []) sessionIdle).map (fun r => (r.C, r.loop, r.consumer)) =
      some ([0], [], [Effect.call]) := by
  refine ⟨?_, ?_, ?_, by decide⟩
  · simp [AutoCommand.listen, Timer.NewTimer]
  · simp [AutoCommand.listen, Timer.NewTimer, Timer.expire]
  · intro h
    have h1 := h.1
    simp only [time.Second] at h1
    omega

/-- What the run guard does in a call that gets past `Lock()`. With the flag set
and the mutex free, `RunFunc`, and so `RunCommand`, calls the error handler
once, with the already-running error, unlocks and returns; its only effects
are these three, and the engine is left as it was. With the mutex held the
call waits in `Lock()`. An engine made by `NewAutoCommand` has the flag unset;
a call of `RunFunc` on an engine with the flag unset and the mutex free returns
with the flag set; and no method of the engine turns a set flag off. -/
theorem RunFunc_flag_set_once_mutex_free :
    (∀ (b : AutoCommand) (h : Nat → List Effect) (ses : Session),
      b.runChecker.running = true → b.runChecker.locked = false →
      b.RunFunc h ses =
        some { b := b,
               main := [Effect.lock, Effect.errHandle alreadyRunning, Effect.unlock],
               loop := [], consumer := [], C := [] }) ∧
    (∀ (b : AutoCommand) (command : String) (args : List String)
       (runErr : Nat → Option String) (ses : Session),
      b.runChecker.running = true → b.runChecker.locked = false →
      b.RunCommand command args runErr ses =
        some { b := b,
               main := [Effect.lock, Effect.errHandle alreadyRunning, Effect.unlock],
               loop := [], consumer := [], C := [] }) ∧
    (∀ (b : AutoCommand) (h : Nat → List Effect) (ses : Session),
      b.runChecker.locked = true → b.RunFunc h ses = none) ∧
    alreadyRunning = "wathcer.AutoCommand.RunFunc: the watcher is " ++ "already running" ∧
    (∀ (exts : List String) (w : Watcher) (b : AutoCommand),
      NewAutoCommand exts (.ok w) = some b →
      b.runChecker.running = false ∧ b.runChecker.locked = false) ∧
    (∀ (b : AutoCommand) (h : Nat → List Effect) (ses : Session),
      b.runChecker.running = false → b.runChecker.locked = false →
      ∃ r, b.RunFunc h ses = some r ∧ r.b.runChecker.running = true) ∧
    (∀ (b : AutoCommand), b.runChecker.running = true →
      (∀ dir, (b.Watch dir).runChecker.running = true) ∧
      (∀ h ses r, b.RunFunc h ses = some r → r.b.runChecker.running = true) ∧
      (∀ command args runErr ses r,
        b.RunCommand command args runErr ses = some r → r.b.runChecker.running = true) ∧
      (∀ env now, (b.listen env now).1.b.runChecker.running = true) ∧
      (∀ timer inputs, (runLoop inputs ⟨b, timer⟩).1.b.runChecker.running = true)) := by
  refine ⟨?_, ?_, ?_, by decide, ?_, ?_, ?_⟩
  · intro b h ses hrun hfree
    exact RunFunc_running b h ses hrun hfree
  · intro b command args runErr ses hrun hfree
    exact RunFunc_running b _ ses hrun hfree
  · intro b h ses hlocked
    simp [AutoCommand.RunFunc, hlocked]
  · intro exts w b hb
    simp only [NewAutoCommand, Option.some.injEq] at hb
    subst hb
    exact ⟨rfl, rfl⟩
  · intro b h ses hrun hfree
    have hsome : (b.RunFunc h ses).isSome = true := by
      simp [AutoCommand.RunFunc, hrun, hfree]
    obtain ⟨r, hr⟩ := Option.isSome_iff_exists.mp hsome
    exact ⟨r, hr, (RunFunc_flag_set b h ses r hr).1⟩
  · intro b hrun
    refine ⟨?_, ?_, ?_, ?_, ?_⟩
    · intro dir
      exact hrun
    · intro h ses r hr
      exact (RunFunc_flag_set b h ses r hr).1
    · intro command args runErr ses r hr
      exact (RunFunc_flag_set b _ ses r hr).1
    · intro env now
      exact hrun
    · intro timer inputs
      rw [(runLoop_engine inputs ⟨b, timer⟩).1]
      exact hrun

/-- The engine of a first call of `RunFunc` that has reached the receive `<-sig`
has the flag set and the mutex held, and every call of `RunFunc` made on it
waits in `Lock()`. -/
theorem RunFuncWaiting_holds_mutex (b : AutoCommand) (ses : Session) (b2 : AutoCommand)
    (hw : b.RunFuncWaiting ses = some b2) :
    b2.runChecker.running = true ∧ b2.runChecker.locked = true ∧
    ∀ (h : Nat → List Effect) (ses2 : Session), b2.RunFunc h ses2 = none := by
  unfold AutoCommand.RunFuncWaiting at hw
  split at hw
  · cases hw
  · simp only at hw
    split at hw
    · cases hw
    · simp only [Option.some.injEq] at hw
      have hrc : b2.runChecker = { locked := true, running := true } := by
        rw [← hw, (runLoop_engine _ _).1]
        rfl
      refine ⟨by rw [hrc], by rw [hrc], ?_⟩
      intro h ses2
      simp [AutoCommand.RunFunc, hrc]

/-- A first call of `RunFunc` that has reached the receive `<-sig` returns, when
the signal comes, with the engine it had there, the watcher closed and the
mutex released. -/
theorem RunFunc_returns_from_waiting (b : AutoCommand) (h : Nat → List Effect)
    (ses : Session) (b2 : AutoCommand) (hw : b.RunFuncWaiting ses = some b2) :
    ∃ r, b.RunFunc h ses = some r ∧
      r.b = { b2 with watcher := b2.watcher.Close,
                      runChecker := { b2.runChecker with locked := false } } := by
  unfold AutoCommand.RunFuncWaiting at hw
  unfold AutoCommand.RunFunc
  split at hw
  · cases hw
  · rename_i hfree
    simp only at hw
    split at hw
    · cases hw
    · rename_i hrun
      simp only [Option.some.injEq] at hw
      subst hw
      simp only [hfree, hrun, if_false]
      exact ⟨_, rfl, rfl⟩

/-- C4. A second call made while the engine is running. The first call of
`RunFunc` on `engineGo` reaches the receive `<-sig` with the engine in the
state `engineBusy`: the flag is set and the mutex is held, its `Unlock` being
deferred to its return. A call of `RunFunc`, or of `RunCommand`, on that
engine waits in `Lock()`: it has made no call of the error handler and has not
returned. Once the first call has returned, leaving the engine in the state
`engineRan`, a call does report the already-running error, once, and
returns. -/
theorem RunFunc_while_running_waits_in_lock :
    engineGo.RunFuncWaiting sessionGo = some engineBusy ∧
    engineBusy.runChecker.running = true ∧
    engineBusy.runChecker.locked = true ∧
    engineBusy.RunFunc (fun _ => []) sessionGo = none ∧
    engineBusy.RunCommand "mytool" ["-flag"] (fun _ => none) sessionGo = none ∧
    (engineGo.RunFunc (fun _ => []) sessionGo).map (fun r => r.b) = some engineRan ∧
    engineRan.RunFunc (fun _ => []) sessionGo =
      some { b := engineRan,
             main := [Effect.lock, Effect.errHandle alreadyRunning, Effect.unlock],
             loop := [], consumer := [], C := [] } := by
  refine ⟨by decide, rfl, rfl, by decide, by decide, by decide, by decide⟩

/-- C5, as the claim states it, fails. A created event for the existing directory
`/R/sub`, taken by `loopRoot`: when the notification capability refuses the
registration the value returned by `Add` is dropped and `/R/sub` is not in the
watch set afterwards; and when `/R/sub` holds a directory `a` that cannot be
listed the walk stops there, so its directory `b` is not in the watch set
afterwards. -/
theorem created_directory_not_watched :
    (fsnotify.Create &&& fsnotify.Create = fsnotify.Create ∧
      filepath.Ext "/R/sub" = "" ∧ mapGet loopRoot.b.exts "" = false ∧
      lookup envFull.fs "/R/sub" = some treeSub ∧ treeSub.IsDir = true ∧
      DirUnder "/R/sub" treeSub "/R/sub" ∧
      "/R/sub" ∉
        (handleEvent envFull 0 ⟨"/R/sub", fsnotify.Create⟩ loopRoot).1.b.watcher.watches) ∧
    (lookup envLocked.fs "/R/sub" = some treeSubLocked ∧ treeSubLocked.IsDir = true ∧
      DirUnder "/R/sub" treeSubLocked "/R/sub/b" ∧
      "/R/sub/b" ∉
        (handleEvent envLocked 0 ⟨"/R/sub", fsnotify.Create⟩ loopRoot).1.b.watcher.watches) := by
  refine ⟨⟨by decide, by decide, by decide, rfl, rfl, DirUnder.self _ _ _, by decide⟩,
    ⟨rfl, rfl, ?_, by decide⟩⟩
  exact DirUnder.inside "/R/sub" true _ "b" (.dir true []) "/R/sub/b" (by simp)
    (DirUnder.self _ _ _)

/-- C5, amended. A created event whose path has no extension (the empty extension
not being in the map) and names an existing directory that can be traversed
without error, taken while the watcher is open and the notification capability
refuses no registration: afterwards the watch set holds the directory and every
directory below it, and a later event for an entry of any of these directories
whose extension is in the map resets the timer to three seconds after the
instant it is taken. -/
theorem created_directory_is_watched (env : World) (now : Nat) (evt : Event) (s : Loop)
    (t : Node)
    (hcreate : evt.Op &&& fsnotify.Create = fsnotify.Create)
    (hext : filepath.Ext evt.Name = "")
    (hnot : mapGet s.b.exts "" = false)
    (hfound : lookup env.fs evt.Name = some t) (hdir : t.IsDir = true)
    (htrav : t.traversable = true)
    (hopen : s.b.watcher.closed = false)
    (hadd : ∀ ws d, env.addFails ws d = false) :
    ∀ q, DirUnder evt.Name t q →
      q ∈ (handleEvent env now evt s).1.b.watcher.watches ∧
      ∀ (env2 : World) (now2 : Nat) (name : String) (op : Nat),
        mapGet s.b.exts (filepath.Ext (filepath.Join q name)) = true →
        (handleEvent env2 now2 ⟨filepath.Join q name, op⟩
            (handleEvent env now evt s).1).1.timer.pending =
          some (now2 + 3 * time.Second) ∧
        Effect.timerReset (3 * time.Second) ∈
          (handleEvent env2 now2 ⟨filepath.Join q name, op⟩
            (handleEvent env now evt s).1).2 := by
  intro q hq
  have hw := walk_traversable env.fs evt.Name t hfound hdir htrav
  constructor
  · rw [handleEvent_created env now evt s t hcreate hext hnot hfound hdir]
    exact addAll_registers env hadd _ _ hopen q ((hw.1 q).mpr hq)
  · intro env2 now2 name op hqual
    have hexts := (handleEvent_engine env now evt s).2.1
    rw [handleEvent_qualifying env2 now2 _ _ (by rw [hexts]; exact hqual)]
    simp

/-- Witness for C5, amended: the directory `/R/sub` of `treeR`, created while
`loopRoot` runs in an environment that accepts every registration; `/R/sub/x`
is watched afterwards and a write to `/R/sub/x/c.go` resets the timer. -/
theorem created_directory_is_watched_witness :
    fsnotify.Create &&& fsnotify.Create = fsnotify.Create ∧
    filepath.Ext "/R/sub" = "" ∧ mapGet loopRoot.b.exts "" = false ∧
    lookup envR.fs "/R/sub" = some treeSub ∧ treeSub.IsDir = true ∧
    treeSub.traversable = true ∧ loopRoot.b.watcher.closed = false ∧
    (∀ ws d, envR.addFails ws d = false) ∧
    DirUnder "/R/sub" treeSub "/R/sub/x" ∧
    mapGet loopRoot.b.exts (filepath.Ext (filepath.Join "/R/sub/x" "c.go")) = true ∧
    "/R/sub/x" ∈
      (handleEvent envR 0 ⟨"/R/sub", fsnotify.Create⟩ loopRoot).1.b.watcher.watches ∧
    (handleEvent envR 9 ⟨filepath.Join "/R/sub/x" "c.go", fsnotify.Write⟩
        (handleEvent envR 0 ⟨"/R/sub", fsnotify.Create⟩ loopRoot).1).1.timer.pending =
      some (9 + 3 * time.Second) :=
  have hx : DirUnder "/R/sub" treeSub "/R/sub/x" :=
    DirUnder.inside "/R/sub" true _ "x" (.dir true []) "/R/sub/x" (by simp)
      (DirUnder.self _ _ _)
  ⟨by decide, by decide, by decide, rfl, rfl, rfl, rfl, fun _ _ => rfl, hx, by decide,
   (created_directory_is_watched envR 0 ⟨"/R/sub", fsnotify.Create⟩ loopRoot treeSub
      (by decide) (by decide) (by decide) rfl rfl rfl rfl (fun _ _ => rfl)
      "/R/sub/x" hx).1,
   ((created_directory_is_watched envR 0 ⟨"/R/sub", fsnotify.Create⟩ loopRoot treeSub
      (by decide) (by decide) (by decide) rfl rfl rfl rfl (fun _ _ => rfl)
      "/R/sub/x" hx).2 envR 9 "c.go" fsnotify.Write (by decide)).1⟩

/-- The watch on a path is gone once the path has been withdrawn. -/
theorem withdraw_not_mem (w : Watcher) (name : String) :
    name ∉ (w.withdraw name).watches := by
  simp [Watcher.withdraw, List.mem_filter]

/-- A call of `Remove` adds no watch. -/
theorem remove_not_mem (w : Watcher) (d q : String) (hq : q ∉ w.watches) :
    q ∉ (w.Remove d).1.watches := by
  unfold Watcher.Remove
  split
  · exact hq
  · intro hmem
    exact hq (List.mem_filter.mp hmem).1

/-- The loop over `Remove` adds no watch. -/
theorem removeAll_not_mem (ds : List String) (w : Watcher) (q : String)
    (hq : q ∉ w.watches) : q ∉ (removeAll ds w).1.watches := by
  induction ds generalizing w with
  | nil => exact hq
  | cons d rest ih => exact ih _ (remove_not_mem w d q hq)

/-- The event branch adds no watch on an event without the Create bit. -/
theorem handleEvent_not_created_not_mem (env : World) (now : Nat) (evt : Event) (s : Loop)
    (hcreate : ¬ evt.Op &&& fsnotify.Create = fsnotify.Create) (q : String)
    (hq : q ∉ s.b.watcher.watches) :
    q ∉ (handleEvent env now evt s).1.b.watcher.watches := by
  unfold handleEvent
  simp only
  split
  · exact hq
  · split
    · split
      · exact hq
      · split
        · split
          · exact removeAll_not_mem _ _ q hq
          · exact hq
        · exact hq
    · exact hq

/-- C6. One iteration of the loop on an event of type removed (the loop looks for
the Create bit first, so the event has the Remove bit and not the Create bit):
afterwards the path of the event is not in the watch set. The watcher has
withdrawn the watch of the deleted path by the time it reports the removal, and
nothing the loop does on such an event adds a watch. When the path has no
extension (the empty extension not being in the map) the loop does this: if the
path is already gone, `os.Stat` fails, the error goes to the error handler and
`b.watcher.Remove` is not called; if the path names a directory that exists,
the directory is walked and every path found is handed to
`b.watcher.Remove`. -/
theorem removed_directory_leaves_watch_set (s : Loop) (time : Nat) (env : World)
    (evt : Event)
    (hremove : evt.Op &&& fsnotify.Remove = fsnotify.Remove)
    (hcreate : ¬ evt.Op &&& fsnotify.Create = fsnotify.Create) :
    evt.Name ∉
      (loopStep { time := time, env := env, msg := .event evt } s).1.b.watcher.watches ∧
    (filepath.Ext evt.Name = "" → mapGet s.b.exts "" = false →
      lookup env.fs evt.Name = none →
      (loopStep { time := time, env := env, msg := .event evt } s).1.b.watcher =
        s.b.watcher.withdraw evt.Name ∧
      (loopStep { time := time, env := env, msg := .event evt } s).2 =
        [Effect.errHandle ("watcher.AutoCommand.listen(): " ++
           ("stat " ++ evt.Name ++ ": no such file or directory"))]) ∧
    (filepath.Ext evt.Name = "" → mapGet s.b.exts "" = false →
      ∀ t, lookup env.fs evt.Name = some t → t.IsDir = true →
      (loopStep { time := time, env := env, msg := .event evt } s).1.b.watcher =
        (removeAll (AutoCommand.walk env.fs evt.Name).1
          (s.b.watcher.withdraw evt.Name)).1 ∧
      (loopStep { time := time, env := env, msg := .event evt } s).2 =
        (AutoCommand.walk env.fs evt.Name).2 ++
          (removeAll (AutoCommand.walk env.fs evt.Name).1
            (s.b.watcher.withdraw evt.Name)).2) := by
  have hstep : loopStep { time := time, env := env, msg := .event evt } s =
      handleEvent env time evt
        { b := { s.b with watcher := s.b.watcher.withdraw evt.Name },
          timer := s.timer.expire time } := by
    simp [loopStep, Watcher.deliver, hremove]
  rw [hstep]
  refine ⟨?_, ?_, ?_⟩
  · exact handleEvent_not_created_not_mem env time evt _ hcreate evt.Name
      (withdraw_not_mem _ _)
  · intro hext hnot hgone
    have h1 := handleEvent_stat_error env time evt
      ⟨{ s.b with watcher := s.b.watcher.withdraw evt.Name }, s.timer.expire time⟩
      hext hnot hgone
    exact ⟨congrArg (fun r => r.1.b.watcher) h1, congrArg Prod.snd h1⟩
  · intro hext hnot t hfound hdir
    have h1 := handleEvent_removed env time evt
      ⟨{ s.b with watcher := s.b.watcher.withdraw evt.Name }, s.timer.expire time⟩
      t hcreate hremove hext hnot hfound hdir
    exact ⟨congrArg (fun r => r.1.b.watcher) h1, congrArg Prod.snd h1⟩

/-- Witness for C6: the removed event for `/R/sub`, which `loopGo` watches, taken
when the directory is gone. Afterwards the watch set is `/R` alone, and the
loop has reported the failed `os.Stat` to the error handler. -/
theorem removed_directory_leaves_watch_set_witness :
    fsnotify.Remove &&& fsnotify.Remove = fsnotify.Remove ∧
    ¬ fsnotify.Remove &&& fsnotify.Create = fsnotify.Create ∧
    "/R/sub" ∈ loopGo.b.watcher.watches ∧
    filepath.Ext "/R/sub" = "" ∧ mapGet loopGo.b.exts "" = false ∧
    lookup envGone.fs "/R/sub" = none ∧
    "/R/sub" ∉
      (loopStep { time := 0, env := envGone, msg := .event ⟨"/R/sub", fsnotify.Remove⟩ }
        loopGo).1.b.watcher.watches ∧
    (loopStep { time := 0, env := envGone, msg := .event ⟨"/R/sub", fsnotify.Remove⟩ }
        loopGo).1.b.watcher = loopGo.b.watcher.withdraw "/R/sub" ∧
    loopGo.b.watcher.withdraw "/R/sub" = { watches := ["/R"], closed := false } ∧
    (loopStep { time := 0, env := envGone, msg := .event ⟨"/R/sub", fsnotify.Remove⟩ }
        loopGo).2 =
      [Effect.errHandle ("watcher.AutoCommand.listen(): " ++
         ("stat " ++ "/R/sub" ++ ": no such file or directory"))] :=
  ⟨by decide, by decide, by decide, by decide, by decide, rfl,
   (removed_directory_leaves_watch_set loopGo 0 envGone ⟨"/R/sub", fsnotify.Remove⟩
      (by decide) (by decide)).1,
   ((removed_directory_leaves_watch_set loopGo 0 envGone ⟨"/R/sub", fsnotify.Remove⟩
      (by decide) (by decide)).2.1 (by decide) (by decide) rfl).1,
   by decide,
   ((removed_directory_leaves_watch_set loopGo 0 envGone ⟨"/R/sub", fsnotify.Remove⟩
      (by decide) (by decide)).2.1 (by decide) (by decide) rfl).2⟩

/-- C7, as the claim states it, fails. With a notification capability that
refuses every registration, `listen` on `engineGo` makes four calls of `Add`
that fail and no call of the error handler, and so does the event branch on a
created event for `/R/sub`; on a removed event for `/R/sub`, taken by `loopGo`
while the directory exists, two of the three calls of `Remove` fail and the
error handler is not called. -/
theorem add_remove_failures_not_reported :
    ((engineGo.listen envFull 0).2 =
        [Effect.watcherAdd "/R" false, Effect.watcherAdd "/R" false,
         Effect.watcherAdd "/R/sub" false, Effect.watcherAdd "/R/sub/x" false,
         Effect.newTimer 0, Effect.go]) ∧
    ((handleEvent envFull 0 ⟨"/R/sub", fsnotify.Create⟩ loopRoot).2 =
        [Effect.watcherAdd "/R/sub" false, Effect.watcherAdd "/R/sub" false,
         Effect.watcherAdd "/R/sub/x" false]) ∧
    ((handleEvent envR 0 ⟨"/R/sub", fsnotify.Remove⟩ loopGo).2 =
        [Effect.watcherRemove "/R/sub" true, Effect.watcherRemove "/R/sub" false,
         Effect.watcherRemove "/R/sub/x" false]) := by
  refine ⟨by decide, by decide, by decide⟩

/-- C7, amended. A failure of `b.watcher.Add` or `b.watcher.Remove` is dropped:
the calls of the error handler made by `listen` are those made by `walk` on the
configured roots and no other, and the calls made by the event branch on a
created or removed directory are those made by `walk` on that directory and no
other, whatever `Add` and `Remove` return. A failure of the traversal is passed
to the error handler by `walk`, a failure of `os.Stat` is passed to it by the
event branch, and an error of the watcher is passed to it by the error
branch. -/
theorem errors_reported_except_add_remove :
    (∀ (b : AutoCommand) (env : World) (now : Nat),
      (b.listen env now).2.filter Effect.isErrHandle =
        b.dirs.flatMap (fun root => (AutoCommand.walk env.fs root).2)) ∧
    (∀ (env : World) (now : Nat) (evt : Event) (s : Loop) (t : Node),
      filepath.Ext evt.Name = "" → mapGet s.b.exts "" = false →
      lookup env.fs evt.Name = some t → t.IsDir = true →
      evt.Op &&& fsnotify.Create = fsnotify.Create ∨
        evt.Op &&& fsnotify.Remove = fsnotify.Remove →
      (handleEvent env now evt s).2.filter Effect.isErrHandle =
        (AutoCommand.walk env.fs evt.Name).2) ∧
    (∀ (fs : Node) (dir err : String),
      (filepath.Walk fs dir).2 = some err →
      (AutoCommand.walk fs dir).2 =
        [Effect.errHandle ("watcher.AutoCommand.walk(): " ++ err)]) ∧
    (∀ (env : World) (now : Nat) (evt : Event) (s : Loop),
      filepath.Ext evt.Name = "" → mapGet s.b.exts "" = false →
      lookup env.fs evt.Name = none →
      handleEvent env now evt s =
        (s, [Effect.errHandle ("watcher.AutoCommand.listen(): " ++
               ("stat " ++ evt.Name ++ ": no such file or directory"))])) ∧
    (∀ (time : Nat) (env : World) (err : String) (s : Loop),
      (loopStep { time := time, env := env, msg := .error err } s).2 =
        [Effect.errHandle ("watcher.AutoCommand.listen(): " ++ err)]) := by
  refine ⟨?_, ?_, ?_, ?_, ?_⟩
  · intro b env now
    simp only [AutoCommand.listen, List.filter_append, filter_errHandle_listenRoots]
    simp [Effect.isErrHandle]
  · intro env now evt s t hext hnot hfound hdir hop
    by_cases hcreate : evt.Op &&& fsnotify.Create = fsnotify.Create
    · rw [handleEvent_created env now evt s t hcreate hext hnot hfound hdir]
      simp only [List.filter_append, filter_errHandle_walk, filter_errHandle_addAll,
        List.append_nil]
    · have hremove : evt.Op &&& fsnotify.Remove = fsnotify.Remove := by
        rcases hop with h | h
        · exact absurd h hcreate
        · exact h
      rw [handleEvent_removed env now evt s t hcreate hremove hext hnot hfound hdir]
      simp only [List.filter_append, filter_errHandle_walk, filter_errHandle_removeAll,
        List.append_nil]
  · intro fs dir err herr
    simp [AutoCommand.walk, herr]
  · intro env now evt s hext hnot hmissing
    exact handleEvent_stat_error env now evt s hext hnot hmissing
  · intro time env err s
    rfl

/-- Witness for C7, amended: the created event for `/R/sub` under a notification
capability that refuses every registration, the walk of the missing directory
`/R/sub` of `treeGone`, and the removed event for that missing directory. -/
theorem errors_reported_except_add_remove_witness :
    (filepath.Ext "/R/sub" = "" ∧ mapGet loopRoot.b.exts "" = false ∧
      lookup envFull.fs "/R/sub" = some treeSub ∧ treeSub.IsDir = true ∧
      (handleEvent envFull 0 ⟨"/R/sub", fsnotify.Create⟩ loopRoot).2.filter
          Effect.isErrHandle =
        (AutoCommand.walk envFull.fs "/R/sub").2) ∧
    ((filepath.Walk treeGone "/R/sub").2 =
        some "lstat /R/sub: no such file or directory" ∧
      (AutoCommand.walk treeGone "/R/sub").2 =
        [Effect.errHandle ("watcher.AutoCommand.walk(): " ++
           "lstat /R/sub: no such file or directory")]) ∧
    (lookup envGone.fs "/R/sub" = none ∧
      handleEvent envGone 0 ⟨"/R/sub", fsnotify.Remove⟩ loopGo =
        (loopGo, [Effect.errHandle ("watcher.AutoCommand.listen(): " ++
           ("stat " ++ "/R/sub" ++ ": no such file or directory"))])) :=
  ⟨⟨by decide, by decide, rfl, rfl,
    errors_reported_except_add_remove.2.1 envFull 0 ⟨"/R/sub", fsnotify.Create⟩ loopRoot
      treeSub (by decide) (by decide) rfl rfl (Or.inl (by decide))⟩,
   ⟨by decide,
    errors_reported_except_add_remove.2.2.1 treeGone "/R/sub"
      "lstat /R/sub: no such file or directory" (by decide)⟩,
   ⟨rfl,
    errors_reported_except_add_remove.2.2.2.1 envGone 0 ⟨"/R/sub", fsnotify.Remove⟩ loopGo
      (by decide) (by decide) rfl⟩⟩

/-- C8. For a directory `dir` of the tree whose subtree can be traversed without
error, the elements of `walk(dir)` are exactly `dir` and the directories below
it, and `walk` makes no call of the error handler. For every engine, `listen`
hands to `b.watcher.Add`, in order, every element of `walk(root)` of every
configured root; when the watcher is open and no registration is refused, every
such element is in the watch set afterwards. -/
theorem walk_lists_directories_and_listen_registers_them :
    (∀ (fs : Node) (dir : String) (t : Node),
      lookup fs dir = some t → t.IsDir = true → t.traversable = true →
      (∀ q, q ∈ (AutoCommand.walk fs dir).1 ↔ DirUnder dir t q) ∧
      (AutoCommand.walk fs dir).2 = []) ∧
    (∀ (b : AutoCommand) (env : World) (now : Nat),
      addCalls (b.listen env now).2 =
        b.dirs.flatMap (fun root => (AutoCommand.walk env.fs root).1)) ∧
    (∀ (b : AutoCommand) (env : World) (now : Nat),
      b.watcher.closed = false → (∀ ws d, env.addFails ws d = false) →
      ∀ root ∈ b.dirs, ∀ q ∈ (AutoCommand.walk env.fs root).1,
        q ∈ (b.listen env now).1.b.watcher.watches) := by
  refine ⟨?_, ?_, ?_⟩
  · intro fs dir t hfound hdir htrav
    exact walk_traversable fs dir t hfound hdir htrav
  · intro b env now
    unfold AutoCommand.listen
    simp only [addCalls_append, addCalls_listenRoots]
    simp [addCalls]
  · intro b env now hopen hadd root hroot q hq
    unfold AutoCommand.listen
    exact listenRoots_registers env hadd b.dirs b.watcher hopen root hroot q hq

/-- Witness for C8 on `treeR`: `walk("/R/sub")` lists `/R/sub` and `/R/sub/x`
without calling the error handler, and `listen` on `engineGo` registers every
directory below `/R`. -/
theorem walk_lists_directories_and_listen_registers_them_witness :
    (lookup treeR "/R/sub" = some treeSub ∧ treeSub.IsDir = true ∧
      treeSub.traversable = true ∧
      ((∀ q, q ∈ (AutoCommand.walk treeR "/R/sub").1 ↔ DirUnder "/R/sub" treeSub q) ∧
       (AutoCommand.walk treeR "/R/sub").2 = [])) ∧
    (engineGo.watcher.closed = false ∧ (∀ ws d, envR.addFails ws d = false) ∧
      "/R" ∈ engineGo.dirs ∧ "/R/sub/x" ∈ (AutoCommand.walk envR.fs "/R").1 ∧
      "/R/sub/x" ∈ (engineGo.listen envR 0).1.b.watcher.watches) :=
  ⟨⟨rfl, rfl, rfl,
    walk_lists_directories_and_listen_registers_them.1 treeR "/R/sub" treeSub rfl rfl rfl⟩,
   ⟨rfl, fun _ _ => rfl, by decide, by decide,
    walk_lists_directories_and_listen_registers_them.2.2 engineGo envR 0 rfl
      (fun _ _ => rfl) "/R" (by decide) "/R/sub/x" (by decide)⟩⟩

/-- C9. The command line `RunCommand` builds is the command name and the arguments
joined with single spaces; the action it hands to `RunFunc` first logs
`[start] running command: [...]` with that line and then launches the process
with the command name and the argument list as they were given; for `mytool`
with the argument `-flag` the logged line is
`[start] running command: [mytool -flag]`. -/
theorem RunCommand_logs_joined_command_line (command : String) (args : List String) :
    commandLine command args = joinedWithSpaces command args ∧
    (∀ (b : AutoCommand) (runErr : Nat → Option String) (ses : Session),
      b.RunCommand command args runErr ses =
        b.RunFunc (commandAction command args runErr) ses) ∧
    (∀ (runErr : Nat → Option String) (at_ : Nat),
      (commandAction command args runErr at_).take 2 =
        [Effect.logPrintf
           ("[start] running command: [" ++ joinedWithSpaces command args ++ "]"),
         Effect.execRun command args]) ∧
    (∀ (runErr : Nat → Option String) (at_ : Nat),
      (commandAction "mytool" ["-flag"] runErr at_).head? =
        some (Effect.logPrintf "[start] running command: [mytool -flag]")) := by
  have hline : commandLine command args = joinedWithSpaces command args := by
    rw [commandLine_eq_foldl]
    show _ = String.intercalate.go command " " args
    rw [intercalate_go_eq]
  refine ⟨hline, ?_, ?_, ?_⟩
  · intro b runErr ses
    rfl
  · intro runErr at_
    simp [commandAction, hline]
  · intro runErr at_
    simp only [commandAction, List.cons_append, List.head?_cons]
    decide

/-- C10, as the claim states it, fails: in the first call of `RunFunc` on
`engineGo` the mutex is held when `listen` creates its timer and is still held
at the receive from the signal channel. -/
theorem RunFunc_lock_held_at_signal_wait :
    ∃ r pre post, engineGo.RunFunc (fun _ => []) sessionGo = some r ∧
      r.main = pre ++ Effect.awaitSignal :: post ∧
      Effect.newTimer 0 ∈ pre ∧
      lockHeldAfter false pre = true :=
  ⟨{ b := engineRan,
     main := [Effect.lock, Effect.watcherAdd "/R" true, Effect.watcherAdd "/R" true,
              Effect.watcherAdd "/R/sub" true, Effect.watcherAdd "/R/sub/x" true,
              Effect.newTimer 0, Effect.go, Effect.signalNotify, Effect.go,
              Effect.awaitSignal, Effect.watcherClose, Effect.unlock],
     loop := [Effect.timerReset (3 * time.Second), Effect.timerReset (3 * time.Second)],
     consumer := [Effect.call, Effect.call],
     C := [0, 5000000000] },
   [Effect.lock, Effect.watcherAdd "/R" true, Effect.watcherAdd "/R" true,
    Effect.watcherAdd "/R/sub" true, Effect.watcherAdd "/R/sub/x" true,
    Effect.newTimer 0, Effect.go, Effect.signalNotify, Effect.go],
   [Effect.watcherClose, Effect.unlock],
   by decide, rfl, by decide, by decide⟩

/-- C10, amended. In every call of `RunFunc` that gets the mutex, the first effect
is the lock and the last is the deferred unlock, and the mutex is held at every
point between them: on the already-running path across the call of the error
handler, and on the first-start path across the whole of `listen`, the request
for signals, the start of the goroutine, the receive from the signal channel
and the closing of the watcher. -/
theorem RunFunc_holds_lock_until_return (b : AutoCommand) (h : Nat → List Effect)
    (ses : Session) (r : Run) (hr : b.RunFunc h ses = some r) :
    r.main.head? = some Effect.lock ∧
    r.main.getLast? = some Effect.unlock ∧
    (∀ n, 0 < n → n < r.main.length → lockHeldAfter false (r.main.take n) = true) ∧
    lockHeldAfter false r.main = false ∧
    (b.runChecker.running = false →
      ∃ pre post, r.main = pre ++ Effect.awaitSignal :: post ∧
        Effect.newTimer 0 ∈ pre ∧ lockHeldAfter false pre = true) := by
  obtain ⟨mid, hmain, hmid, hfresh⟩ := RunFunc_main_shape b h ses r hr
  have hb := lockHeld_between mid hmid
  rw [hmain]
  refine ⟨rfl, ?_, hb.1, hb.2, ?_⟩
  · rw [← List.cons_append, List.getLast?_append]
    rfl
  · intro hrun
    obtain ⟨pre, hpre, hin⟩ := hfresh hrun
    refine ⟨Effect.lock :: pre, [Effect.watcherClose, Effect.unlock], ?_, ?_, ?_⟩
    · rw [hpre]
      simp
    · exact List.mem_cons_of_mem _ hin
    · simp only [lockHeldAfter]
      apply lockHeldAfter_noMutex
      intro e he
      exact hmid e (by rw [hpre]; exact List.mem_append_left _ he)

/-- Witness for C10, amended: the first call of `RunFunc` on `engineGo`. -/
theorem RunFunc_holds_lock_until_return_witness :
    ∃ r, engineGo.RunFunc (fun _ => []) sessionGo = some r ∧
      r.main.head? = some Effect.lock ∧
      r.main.getLast? = some Effect.unlock ∧
      lockHeldAfter false (r.main.take 9) = true ∧
      lockHeldAfter false r.main = false :=
  ⟨{ b := engineRan,
     main := [Effect.lock, Effect.watcherAdd "/R" true, Effect.watcherAdd "/R" true,
              Effect.watcherAdd "/R/sub" true, Effect.watcherAdd "/R/sub/x" true,
              Effect.newTimer 0, Effect.go, Effect.signalNotify, Effect.go,
              Effect.awaitSignal, Effect.watcherClose, Effect.unlock],
     loop := [Effect.timerReset (3 * time.Second), Effect.timerReset (3 * time.Second)],
     consumer := [Effect.call, Effect.call],
     C := [0, 5000000000] },
   by decide,
   (RunFunc_holds_lock_until_return engineGo (fun _ => []) sessionGo _ (by decide)).1,
   (RunFunc_holds_lock_until_return engineGo (fun _ => []) sessionGo _ (by decide)).2.1,
   (RunFunc_holds_lock_until_return engineGo (fun _ => []) sessionGo _ (by decide)).2.2.1 9
     (by decide) (by decide),
   (RunFunc_holds_lock_until_return engineGo (fun _ => []) sessionGo _ (by decide)).2.2.2.1⟩

end watcher
